import Mathlib

/-!
Verification of the fast-spectrogram plugin core
(`src/plugins/fast-spectrogram.ts`, `src/plugins/lib.ts`).

Shallow embedding conventions:
* JS `number` values that enter exact arithmetic paths are modelled as `ℚ`
  (IEEE doubles are idealized as exact rationals; no claim here hinges on
  rounding of a double operation).
* A store into a `Uint8Array` performs the ECMAScript ToUint8 conversion:
  truncation toward zero followed by reduction mod 256 into `[0, 255]`.
  This is `toUint8` below.
* `Math.round x` is `⌊x + 1/2⌋` (ECMAScript rounds half up).
* Loops are embedded as structurally recursive functions; loops whose
  iteration count is not an explicit argument take a fuel argument chosen
  at each call site to dominate the iteration count, so the embedded
  function computes by `rfl`/`decide`.
* The decibel conversion `valueDB = 20 * Math.log10(m)` is transcendental;
  the quantization step is therefore embedded as a function of the decibel
  value `dB : ℚ`.  Since `20·log10` is a strictly increasing bijection from
  positive magnitudes onto the reals, ordering facts about magnitudes
  transfer verbatim to ordering facts about their decibel values.
-/

/-- Truncation toward zero of a rational, as performed by ECMAScript
ToIntegerOrInfinity (and by the `~~` double-bitwise-not idiom). -/
def truncQ (x : ℚ) : ℤ :=
  if 0 ≤ x then ⌊x⌋ else ⌈x⌉

/-- The ECMAScript ToUint8 conversion applied when storing a number into a
`Uint8Array`: truncate toward zero, then reduce mod 256 into `[0,255]`. -/
def toUint8 (x : ℚ) : ℕ :=
  ((truncQ x) % 256).toNat

theorem toUint8_lt (x : ℚ) : toUint8 x < 256 := by
  unfold toUint8
  have h := Int.emod_nonneg (truncQ x) (by norm_num : (256 : ℤ) ≠ 0)
  have h2 := Int.emod_lt_of_pos (truncQ x) (by norm_num : (0 : ℤ) < 256)
  omega

theorem truncQ_of_nonneg (x : ℚ) (h : 0 ≤ x) : truncQ x = ⌊x⌋ := by
  simp [truncQ, h]

theorem toUint8_natCast (v : ℕ) (h : v < 256) : toUint8 (v : ℚ) = v := by
  have h0 : (0 : ℚ) ≤ (v : ℚ) := by positivity
  rw [toUint8, truncQ_of_nonneg _ h0, Int.floor_natCast]
  rw [Int.emod_eq_of_lt (by positivity) (by exact_mod_cast h)]
  simp

/-- Quantization of one spectrum bin, from `getFrequencies`
(fast-spectrogram.ts lines 729–739).  The input is the decibel value
`dB = 20·log10(magnitude)`; `gainDB` and `rangeDB` are the configured
settings.  The final branch stores
`((valueDB + gainDB) / rangeDB) * 255 + 256` into a `Uint8Array` slot,
hence the `toUint8`. -/
def quantize (gainDB rangeDB dB : ℚ) : ℕ :=
  if dB < -rangeDB then 0
  else if dB > -gainDB then 255
  else toUint8 ((dB + gainDB) / rangeDB * 255 + 256)

theorem quantize_le_255 (g r dB : ℚ) : quantize g r dB ≤ 255 := by
  unfold quantize
  split
  · omega
  · split
    · omega
    · have := toUint8_lt ((dB + g) / r * 255 + 256)
      omega

/-- In the mid-range branch with `0 ≤ g`, `0 < r`, `-r ≤ dB < -g`, the
linear term `t = (dB+g)/r·255` lies in `[-255, 0)`. -/
theorem midrange_t_bounds (g r dB : ℚ) (hg : 0 ≤ g) (hr : 0 < r)
    (h1 : -r ≤ dB) (h2 : dB < -g) :
    -255 ≤ (dB + g) / r * 255 ∧ (dB + g) / r * 255 < 0 := by
  have hrw : (dB + g) / r * 255 = (dB + g) * 255 / r := by ring
  constructor
  · rw [hrw, le_div_iff₀ hr]
    linarith
  · rw [hrw]
    exact div_neg_of_neg_of_pos (by linarith) hr

theorem quantize_midrange_strict (g r dB : ℚ) (hg : 0 ≤ g) (hr : 0 < r)
    (h1 : -r ≤ dB) (h2 : dB < -g) :
    quantize g r dB = (⌊(dB + g) / r * 255⌋ + 256).toNat ∧
      1 ≤ quantize g r dB ∧ quantize g r dB ≤ 255 := by
  obtain ⟨hlo, hhi⟩ := midrange_t_bounds g r dB hg hr h1 h2
  set t : ℚ := (dB + g) / r * 255 with ht
  have hfl_lo : (-255 : ℤ) ≤ ⌊t⌋ := by
    rw [Int.le_floor]; exact_mod_cast hlo
  have hfl_hi : ⌊t⌋ < 0 := by
    rw [Int.floor_lt]; exact_mod_cast hhi
  have hb1 : ¬ dB < -r := not_lt.mpr h1
  have hb2 : ¬ dB > -g := not_lt.mpr (le_of_lt h2)
  have htr : truncQ (t + 256) = ⌊t⌋ + 256 := by
    rw [truncQ_of_nonneg _ (by linarith)]
    rw [show (256 : ℚ) = ((256 : ℤ) : ℚ) by norm_num, Int.floor_add_int]
  have hmod : (⌊t⌋ + 256) % 256 = ⌊t⌋ + 256 :=
    Int.emod_eq_of_lt (by omega) (by omega)
  have hq : quantize g r dB = (⌊t⌋ + 256).toNat := by
    unfold quantize
    rw [if_neg hb1, if_neg hb2, toUint8, ← ht, htr, hmod]
  refine ⟨hq, ?_, quantize_le_255 g r dB⟩
  rw [hq]; omega

theorem quantize_at_neg_gain (g r : ℚ) :
    quantize g r (-g) = 0 := by
  unfold quantize
  by_cases hc : (-g : ℚ) < -r
  · simp [hc]
  · rw [if_neg hc, if_neg (by simp)]
    have : (-g + g) / r * 255 + 256 = 256 := by field_simp
    rw [this]
    have : truncQ (256 : ℚ) = 256 := by
      rw [truncQ_of_nonneg _ (by norm_num)]
      norm_num
    simp [toUint8, this]

/-- C1: In the mid-range the byte produced is NOT the claimed
`trunc(((dB+gainDB)/rangeDB)·255)`: at `gainDB = 20`, `rangeDB = 80`,
`dB = -80` (i.e. magnitude `10^(-4)`), the code stores byte 64 while the
claimed formula evaluates to −191, which is not even in `[0,255]`. -/
theorem quantize_claimed_formula_cex :
    ((-80 : ℚ) ≥ -80 ∧ (-80 : ℚ) ≤ -20) ∧
      quantize 20 80 (-80) = 64 ∧
      truncQ (((-80 : ℚ) + 20) / 80 * 255) = -191 ∧
      ¬ ((quantize 20 80 (-80) : ℤ) = truncQ (((-80 : ℚ) + 20) / 80 * 255)) := by
  have h1 : quantize 20 80 (-80) = 64 := by
    norm_num [quantize, toUint8, truncQ]
    decide
  have h2 : truncQ (((-80 : ℚ) + 20) / 80 * 255) = -191 := by
    norm_num [truncQ, Int.ceil_eq_iff]
  refine ⟨⟨by norm_num, by norm_num⟩, h1, h2, ?_⟩
  rw [h1, h2]
  decide

/-- C1 (amended): with `0 ≤ gainDB`, `0 < rangeDB`, `gainDB ≤ rangeDB`:
a value with `dB < -rangeDB` quantizes to 0 and a value with
`dB > -gainDB` quantizes to 255, as claimed; but in the mid-range the
byte equals `⌊((dB+gainDB)/rangeDB)·255⌋ + 256` (the `+256` constant of
the source, wrapped by the Uint8Array store), a value in `[1,255]` for
`dB` strictly below `-gainDB`, and it wraps around to 0 at
`dB = -gainDB` exactly. -/
theorem quantize_branch_spec (g r dB : ℚ) (hg : 0 ≤ g) (hr : 0 < r)
    (hgr : g ≤ r) :
    (dB < -r → quantize g r dB = 0) ∧
    (dB > -g → quantize g r dB = 255) ∧
    (-r ≤ dB → dB < -g →
      quantize g r dB = (⌊(dB + g) / r * 255⌋ + 256).toNat ∧
        1 ≤ quantize g r dB ∧ quantize g r dB ≤ 255) ∧
    (dB = -g → quantize g r dB = 0) := by
  refine ⟨?_, ?_, ?_, ?_⟩
  · intro h; unfold quantize; rw [if_pos h]
  · intro h
    have hnb : ¬ dB < -r := by push_neg; linarith
    unfold quantize; rw [if_neg hnb, if_pos h]
  · intro h1 h2; exact quantize_midrange_strict g r dB hg hr h1 h2
  · intro h; subst h; exact quantize_at_neg_gain g r

/-- C1 witness: concrete instance of the amended claim at
`gainDB = 20`, `rangeDB = 80`, `dB = -40`. -/
theorem quantize_branch_spec_witness :
    quantize 20 80 (-40) = (⌊((-40 : ℚ) + 20) / 80 * 255⌋ + 256).toNat ∧
      1 ≤ quantize 20 80 (-40) ∧ quantize 20 80 (-40) ≤ 255 :=
  (quantize_branch_spec 20 80 (-40) (by norm_num) (by norm_num)
    (by norm_num)).2.2.1 (by norm_num) (by norm_num)

/-- C2: monotonicity fails at the wrap-around point: magnitudes with
decibel values −30 < −20 (defaults `gainDB = 20`, `rangeDB = 80`)
quantize to 224 and 0 respectively. -/
theorem quantize_monotone_cex :
    ((-30 : ℚ) < -20) ∧ quantize 20 80 (-30) = 224 ∧
      quantize 20 80 (-20) = 0 ∧
      ¬ (quantize 20 80 (-30) ≤ quantize 20 80 (-20)) := by
  have h1 : quantize 20 80 (-30) = 224 := by
    norm_num [quantize, toUint8, truncQ]
    decide
  have h2 : quantize 20 80 (-20) = 0 := by
    norm_num [quantize, toUint8, truncQ]
  refine ⟨by norm_num, h1, h2, ?_⟩
  rw [h1, h2]
  decide

/-- C2 (amended): every quantized byte lies in `[0,255]`; and for decibel
values `a < b` (equivalently, magnitudes ordered the same way), with
`0 ≤ gainDB`, `0 < rangeDB`, quantization is monotone non-decreasing
provided `b` is not exactly `-gainDB` — at `b = -gainDB` the source's
`+256` constant wraps the stored byte to 0 and monotonicity fails. -/
theorem quantize_monotone (g r a b : ℚ) (hg : 0 ≤ g) (hr : 0 < r)
    (hab : a < b) (hb : b ≠ -g) :
    quantize g r a ≤ quantize g r b ∧
      quantize g r a ≤ 255 ∧ quantize g r b ≤ 255 := by
  refine ⟨?_, quantize_le_255 g r a, quantize_le_255 g r b⟩
  by_cases ha1 : a < -r
  · have : quantize g r a = 0 := by unfold quantize; rw [if_pos ha1]
    omega
  · push_neg at ha1
    have hb1 : ¬ b < -r := by push_neg; linarith
    by_cases ha2 : a > -g
    · -- a above the gain threshold, so is b
      have hb2 : b > -g := by linarith
      have hqa : quantize g r a = 255 := by
        unfold quantize; rw [if_neg (not_lt.mpr ha1), if_pos ha2]
      have hqb : quantize g r b = 255 := by
        unfold quantize; rw [if_neg hb1, if_pos hb2]
      omega
    · push_neg at ha2
      by_cases hae : a = -g
      · -- quantize a = 0
        subst hae
        have : quantize g r (-g) = 0 := quantize_at_neg_gain g r
        omega
      · have ha2s : a < -g := lt_of_le_of_ne ha2 hae
        obtain ⟨hqa, hqa1, hqa255⟩ :=
          quantize_midrange_strict g r a hg hr ha1 ha2s
        by_cases hb2 : b > -g
        · have hqb : quantize g r b = 255 := by
            unfold quantize; rw [if_neg hb1, if_pos hb2]
          omega
        · push_neg at hb2
          have hb2s : b < -g := lt_of_le_of_ne hb2 hb
          obtain ⟨hqb, hqb1, hqb255⟩ :=
            quantize_midrange_strict g r b hg hr (by linarith) hb2s
          rw [hqa, hqb]
          have hfl : ⌊(a + g) / r * 255⌋ ≤ ⌊(b + g) / r * 255⌋ := by
            apply Int.floor_le_floor
            have hrw1 : (a + g) / r * 255 = (a + g) * 255 / r := by ring
            have hrw2 : (b + g) / r * 255 = (b + g) * 255 / r := by ring
            rw [hrw1, hrw2]
            exact (div_le_div_iff_of_pos_right hr).mpr (by linarith)
          omega

/-- C2 witness: concrete instance of the amended monotonicity at
`a = -40 < b = -30` with the default settings. -/
theorem quantize_monotone_witness :
    quantize 20 80 (-40) ≤ quantize 20 80 (-30) ∧
      quantize 20 80 (-40) ≤ 255 ∧ quantize 20 80 (-30) ≤ 255 :=
  quantize_monotone 20 80 (-40) (-30) (by norm_num) (by norm_num)
    (by norm_num) (by norm_num)

/-- ECMAScript `Math.round`: round half away from zero for positive
arguments, which for all finite inputs equals `⌊x + 1/2⌋`. -/
def jsRound (x : ℚ) : ℤ :=
  ⌊x + 1 / 2⌋

/-- The JavaScript `a || b` default idiom on numbers: `b` is used when `a`
is absent (`undefined`) or falsy (`0` — NaN cannot arise here). -/
def jsOrQ (x : Option ℚ) (d : ℚ) : ℚ :=
  match x with
  | none => d
  | some v => if v = 0 then d else v

/-- Overlap stored by the constructor (fast-spectrogram.ts line 447):
`this.noverlap = options.noverlap || this.fftSamples * 0.75`. -/
def noverlapInit (optNoverlap : Option ℚ) (fftSamples : ℚ) : ℚ :=
  jsOrQ optNoverlap (fftSamples * (3 / 4))

/-- The width-derived overlap of `getFrequencies` (lines 707–710):
`Math.max(0, Math.round(fftSamples - buffer.length / this.canvas.width))`. -/
def widthDerivedNoverlap (fftSamples totalSamples canvasWidth : ℚ) : ℚ :=
  max 0 ((jsRound (fftSamples - totalSamples / canvasWidth) : ℤ) : ℚ)

/-- Effective overlap used by `getFrequencies` (lines 706–710): the stored
overlap, replaced by the width-derived formula only when it is falsy. -/
def effectiveNoverlap (stored fftSamples totalSamples canvasWidth : ℚ) : ℚ :=
  if stored = 0 then widthDerivedNoverlap fftSamples totalSamples canvasWidth
  else stored

/-- C3: with overlap unconfigured, `fftSamples = 512`, 1024 total samples
and a 512-pixel canvas, the effective overlap is the constructor default
`0.75 · 512 = 384`, not the claimed width-derived value
`max(0, round(512 − 1024/512)) = 510`. -/
theorem noverlap_derivation_cex :
    effectiveNoverlap (noverlapInit none 512) 512 1024 512 = 384 ∧
      widthDerivedNoverlap 512 1024 512 = 510 ∧
      (384 : ℚ) ≠ 510 := by
  refine ⟨?_, ?_, by norm_num⟩
  · norm_num [effectiveNoverlap, noverlapInit, jsOrQ]
  · norm_num [widthDerivedNoverlap, jsRound]

/-- C3 (amended): when the overlap option is not explicitly configured the
constructor stores `0.75 · frameSize`; the width-derived branch
`max(0, round(frameSize − totalSamples/W))` in `getFrequencies` runs only
when the stored overlap is 0, which cannot happen for a nonzero frame
size, so it is dead code; and no step-size check or ConfigError exists
anywhere on this path (a non-positive step makes the segmentation loop
diverge instead). -/
theorem noverlap_default_dead_branch (fftSamples : ℚ) (hfs : fftSamples ≠ 0) :
    noverlapInit none fftSamples = fftSamples * (3 / 4) ∧
    ∀ totalSamples canvasWidth : ℚ,
      effectiveNoverlap (noverlapInit none fftSamples) fftSamples
          totalSamples canvasWidth = fftSamples * (3 / 4) := by
  have hinit : noverlapInit none fftSamples = fftSamples * (3 / 4) := rfl
  refine ⟨hinit, fun totalSamples canvasWidth => ?_⟩
  rw [hinit, effectiveNoverlap, if_neg ?_]
  intro h
  rcases mul_eq_zero.mp h with h1 | h2
  · exact hfs h1
  · norm_num at h2

/-- C3 witness: concrete instance of the amended claim at
`fftSamples = 512`. -/
theorem noverlap_default_dead_branch_witness :
    noverlapInit none 512 = 512 * (3 / 4) ∧
      ∀ totalSamples canvasWidth : ℚ,
        effectiveNoverlap (noverlapInit none 512) 512 totalSamples
            canvasWidth = 512 * (3 / 4) :=
  noverlap_default_dead_branch 512 (by norm_num)

/-- Frame offsets produced by the segmentation loop of `getFrequencies`
(lines 720–744): starting at 0, an offset is emitted while
`offset + fftSamples < totalSamples` (strict), advancing by `step`
(`fftSamples - noverlap`).  The fuel argument dominates the iteration
count for any positive step; `segmentOffsets` instantiates it with
`total`, which suffices since offsets grow by at least one per round. -/
def segmentAux (total fs step : ℕ) : ℕ → ℕ → List ℕ
  | 0, _ => []
  | fuel + 1, offset =>
    if offset + fs < total then
      offset :: segmentAux total fs step fuel (offset + step)
    else []

def segmentOffsets (total fs step : ℕ) : List ℕ :=
  segmentAux total fs step total 0

/-- One channel's frames: `channelData.slice(offset, offset + fftSamples)`
at each emitted offset. -/
def frames (channel : List ℚ) (fs step : ℕ) : List (List ℚ) :=
  (segmentOffsets channel.length fs step).map fun o => (channel.drop o).take fs

theorem segmentAux_mem (total fs step : ℕ) (hstep : 0 < step) (o : ℕ) :
    ∀ fuel offset, total ≤ fuel + offset →
      (o ∈ segmentAux total fs step fuel offset ↔
        ∃ k, o = offset + k * step ∧ o + fs < total) := by
  intro fuel
  induction fuel with
  | zero =>
    intro offset hoff
    simp only [segmentAux, List.not_mem_nil, false_iff]
    rintro ⟨k, rfl, hlt⟩
    omega
  | succ n ih =>
    intro offset hoff
    by_cases hc : offset + fs < total
    · rw [segmentAux, if_pos hc]
      have ih2 := ih (offset + step) (by omega)
      constructor
      · intro hmem
        rcases List.mem_cons.mp hmem with rfl | htl
        · exact ⟨0, by omega, hc⟩
        · obtain ⟨k, hk, hlt⟩ := ih2.mp htl
          refine ⟨k + 1, ?_, hlt⟩
          rw [hk, Nat.succ_mul]
          ring
      · rintro ⟨k, hk, hlt⟩
        rcases k with _ | k
        · have ho : o = offset := by simpa using hk
          exact ho ▸ List.mem_cons_self _ _
        · refine List.mem_cons_of_mem _ (ih2.mpr ⟨k, ?_, hlt⟩)
          rw [hk, Nat.succ_mul]
          ring
    · rw [segmentAux, if_neg hc]
      simp only [List.not_mem_nil, false_iff]
      rintro ⟨k, rfl, hlt⟩
      omega

/-- C4: the loop condition is strict: with 4 samples and frame size 4,
offset 0 satisfies `0 + 4 ≤ 4` but no frame is produced — the final
full-length frame ending exactly at the buffer end is dropped. -/
theorem frame_segmentation_cex :
    segmentOffsets 4 4 1 = [] ∧ 0 + 4 ≤ 4 ∧
      frames [0, 0, 0, 0] 4 1 = [] := by
  refine ⟨rfl, by omega, rfl⟩

/-- C4 (amended): for a positive step, a frame is emitted exactly for the
offsets `k · step` with `offset + frameSize < totalSamples` (strictly):
the trailing window is dropped once `frameSize` or fewer samples remain,
so a final frame that would end exactly at the last sample is also
dropped; every emitted frame has exactly `frameSize` samples. -/
theorem frame_segmentation (total fs step o : ℕ) (hstep : 0 < step)
    (ch : List ℚ) (hch : ch.length = total) :
    (o ∈ segmentOffsets total fs step ↔
      ∃ k, o = k * step ∧ o + fs < total) ∧
    ∀ f ∈ frames ch fs step, f.length = fs := by
  constructor
  · rw [segmentOffsets, segmentAux_mem total fs step hstep o total 0 (by omega)]
    constructor
    · rintro ⟨k, hk, hlt⟩; exact ⟨k, by omega, hlt⟩
    · rintro ⟨k, hk, hlt⟩; exact ⟨k, by omega, hlt⟩
  · intro f hf
    rw [frames] at hf
    obtain ⟨o2, ho2, rfl⟩ := List.mem_map.mp hf
    rw [segmentOffsets, segmentAux_mem ch.length fs step hstep o2 ch.length 0
      (by omega)] at ho2
    obtain ⟨k, hk, hlt⟩ := ho2
    rw [List.length_take, List.length_drop]
    omega

/-- C4 witness: concrete instance at 10 samples, frame size 4, step 2. -/
theorem frame_segmentation_witness :
    ((2 ∈ segmentOffsets 10 4 2 ↔ ∃ k, 2 = k * 2 ∧ 2 + 4 < 10) ∧
      ∀ f ∈ frames (List.replicate 10 (0 : ℚ)) 4 2, f.length = 4) :=
  frame_segmentation 10 4 2 2 (by omega) (List.replicate 10 (0 : ℚ))
    (by simp)

/-- The window shapes recognized by `initWindowFunction`
(lib.ts lines 24–95).  The numeric tables are Float32 transcendental
formulas; the dispatch result records which formula was selected. -/
inductive WindowKind where
  | bartlett
  | bartlettHann
  | blackman
  | cosine
  | gauss
  | hamming
  | hann
  | lanczoz
  | rectangular
  | triangular
deriving DecidableEq

/-- Name dispatch of `initWindowFunction` (lib.ts lines 24–95): a switch
on the window name, with `case undefined` sharing the `hann` branch and
the default branch throwing.  Note the source spells the Lanczos window
`lanczoz`. -/
def initWindowFunction (windowFunc : Option String) : Except String WindowKind :=
  match windowFunc with
  | none => Except.ok WindowKind.hann
  | some s =>
    if s = "bartlett" then Except.ok WindowKind.bartlett
    else if s = "bartlettHann" then Except.ok WindowKind.bartlettHann
    else if s = "blackman" then Except.ok WindowKind.blackman
    else if s = "cosine" then Except.ok WindowKind.cosine
    else if s = "gauss" then Except.ok WindowKind.gauss
    else if s = "hamming" then Except.ok WindowKind.hamming
    else if s = "hann" then Except.ok WindowKind.hann
    else if s = "lanczoz" then Except.ok WindowKind.lanczoz
    else if s = "rectangular" then Except.ok WindowKind.rectangular
    else if s = "triangular" then Except.ok WindowKind.triangular
    else Except.error ("No such window function " ++ s)

/-- Whether an `Except` carries a success value. -/
def exceptOk {ε α : Type} : Except ε α → Bool
  | Except.ok _ => true
  | Except.error _ => false

/-- The `rectangular` branch of `initWindowFunction` (lib.ts lines 82–86):
`windowValues[i] = 1` for every `i < bufferSize`. -/
def rectangularWindowValues (bufferSize : ℕ) : List ℚ :=
  (List.range bufferSize).map fun _ => 1

/-- C5: the source recognizes `lanczoz`, not `lanczos`: the claimed name
set is wrong in both directions at this entry. -/
theorem window_name_set_cex :
    exceptOk (initWindowFunction (some "lanczos")) = false ∧
      exceptOk (initWindowFunction (some "lanczoz")) = true := by
  constructor <;> rfl

/-- C5 (amended): window dispatch succeeds exactly for the names
bartlett, bartlettHann, blackman, cosine, gauss, hamming, hann,
`lanczoz` (the source's spelling of lanczos), rectangular, triangular,
plus the absent name which defaults to hann; any other name fails with
the no-such-window-function error; and the rectangular branch fills the
table with the constant 1. -/
theorem window_name_set (windowFunc : Option String) (n i : ℕ) (hi : i < n) :
    (exceptOk (initWindowFunction windowFunc) = true ↔
      (windowFunc = none ∨ windowFunc = some "bartlett" ∨
        windowFunc = some "bartlettHann" ∨ windowFunc = some "blackman" ∨
        windowFunc = some "cosine" ∨ windowFunc = some "gauss" ∨
        windowFunc = some "hamming" ∨ windowFunc = some "hann" ∨
        windowFunc = some "lanczoz" ∨ windowFunc = some "rectangular" ∨
        windowFunc = some "triangular")) ∧
    initWindowFunction none = Except.ok WindowKind.hann ∧
    (rectangularWindowValues n).getD i 0 = 1 := by
  refine ⟨?_, rfl, ?_⟩
  · rcases windowFunc with _ | s
    · simp [initWindowFunction, exceptOk]
    · simp only [initWindowFunction]
      constructor
      · intro hok
        by_cases h1 : s = "bartlett"
        · subst h1; tauto
        · rw [if_neg h1] at hok
          by_cases h2 : s = "bartlettHann"
          · subst h2; tauto
          · rw [if_neg h2] at hok
            by_cases h3 : s = "blackman"
            · subst h3; tauto
            · rw [if_neg h3] at hok
              by_cases h4 : s = "cosine"
              · subst h4; tauto
              · rw [if_neg h4] at hok
                by_cases h5 : s = "gauss"
                · subst h5; tauto
                · rw [if_neg h5] at hok
                  by_cases h6 : s = "hamming"
                  · subst h6; tauto
                  · rw [if_neg h6] at hok
                    by_cases h7 : s = "hann"
                    · subst h7; tauto
                    · rw [if_neg h7] at hok
                      by_cases h8 : s = "lanczoz"
                      · subst h8; tauto
                      · rw [if_neg h8] at hok
                        by_cases h9 : s = "rectangular"
                        · subst h9; tauto
                        · rw [if_neg h9] at hok
                          by_cases h10 : s = "triangular"
                          · subst h10; tauto
                          · rw [if_neg h10] at hok
                            exact absurd hok (by simp [exceptOk])
      · intro hmem
        rcases hmem with h | h | h | h | h | h | h | h | h | h | h <;>
          simp_all [exceptOk]
  · rw [rectangularWindowValues]
    rw [List.getD_eq_getElem?_getD]
    simp [List.getElem?_map, List.getElem?_range hi, List.getElem?_replicate, hi]

/-- C5 witness: instance of the amended claim at the rectangular window
and table index 3 of an 8-point table. -/
theorem window_name_set_witness :
    ((exceptOk (initWindowFunction (some "rectangular")) = true ↔
      (some "rectangular" = none ∨ some "rectangular" = some "bartlett" ∨
        some "rectangular" = some "bartlettHann" ∨
        some "rectangular" = some "blackman" ∨
        some "rectangular" = some "cosine" ∨
        some "rectangular" = some "gauss" ∨
        some "rectangular" = some "hamming" ∨
        some "rectangular" = some "hann" ∨
        some "rectangular" = some "lanczoz" ∨
        some "rectangular" = some "rectangular" ∨
        some "rectangular" = some "triangular")) ∧
      initWindowFunction none = Except.ok WindowKind.hann ∧
      (rectangularWindowValues 8).getD 3 0 = 1) :=
  window_name_set (some "rectangular") 8 3 (by omega)

/-- The `FFT` constructor (lib.ts lines 9–22): stores the buffer size,
allocates the tables, then runs `initWindowFunction`, `initReverseBits`
and `initTrigTables`.  Only `initWindowFunction` can throw; the buffer
size is never validated. -/
def fftBuild (bufferSize : ℕ) (windowFunc : Option String) :
    Except String (ℕ × WindowKind) :=
  (initWindowFunction windowFunc).map fun k => (bufferSize, k)

/-- Powers of two, as a decidable check (the claimed precondition on the
frame size). -/
def isPow2 (n : ℕ) : Bool :=
  (List.range (n + 1)).any fun k => n == 2 ^ k

/-- C6: `new FFT(3, _, "hann")` succeeds even though 3 is not a power of
two: the constructor performs no frame-size validation at all. -/
theorem fft_build_size_cex :
    isPow2 3 = false ∧
      fftBuild 3 (some "hann") = Except.ok (3, WindowKind.hann) := by
  constructor <;> rfl

/-- C6 (amended): FFT plan construction never validates the frame size:
for every `bufferSize` whatsoever (power of two or not), construction
succeeds whenever the window name resolves, returning the stored size and
selected window; it fails only on an unrecognized window name. -/
theorem fft_build_no_size_validation (bufferSize : ℕ)
    (windowFunc : Option String) (k : WindowKind)
    (hw : initWindowFunction windowFunc = Except.ok k) :
    fftBuild bufferSize windowFunc = Except.ok (bufferSize, k) := by
  rw [fftBuild, hw]
  rfl

/-- C6 witness: concrete instance at the non-power-of-two size 3. -/
theorem fft_build_no_size_validation_witness :
    fftBuild 3 (some "hann") = Except.ok (3, WindowKind.hann) :=
  fft_build_no_size_validation 3 (some "hann") WindowKind.hann rfl

/-- Explicit color-table validation from the plugin constructor
(fast-spectrogram.ts lines 411–421): reject when the table has fewer than
256 entries, then reject when any entry does not have exactly 4
components. -/
def validateColorMap (table : List (List ℚ)) : Except String Unit :=
  if table.length < 256 then Except.error "Colormap must contain 256 elements"
  else if table.any fun e => e.length ≠ 4 then
    Except.error "ColorMap entries must contain 4 values"
  else Except.ok ()

/-- C7: a 257-entry well-formed table is accepted: the source only
rejects tables with fewer than 256 entries, never longer ones. -/
theorem colormap_reject_long_cex :
    validateColorMap (List.replicate 257 [0, 0, 0, 1]) = Except.ok () ∧
      (List.replicate 257 ([0, 0, 0, 1] : List ℚ)).length = 257 := by
  constructor
  · rw [validateColorMap,
      if_neg (by rw [List.length_replicate]; omega), if_neg ?_]
    intro hany
    rw [List.any_eq_true] at hany
    obtain ⟨e, he, hne⟩ := hany
    rw [List.eq_of_mem_replicate he] at hne
    revert hne
    decide
  · simp only [List.length_replicate]

/-- C7 (amended): explicit color-table validation accepts exactly the
tables with AT LEAST 256 entries all of which have exactly 4 components:
it rejects a 255-entry table and any table containing an entry of the
wrong arity, and accepts every well-formed 256×4 table — but also accepts
longer well-formed tables. -/
theorem colormap_validation (table : List (List ℚ)) :
    validateColorMap table = Except.ok () ↔
      (256 ≤ table.length ∧ ∀ e ∈ table, e.length = 4) := by
  rw [validateColorMap]
  by_cases h1 : table.length < 256
  · rw [if_pos h1]
    constructor
    · intro h
      exact Except.noConfusion h
    · intro h
      omega
  · rw [if_neg h1]
    by_cases h2 : (table.any fun e => decide (e.length ≠ 4)) = true
    · rw [if_pos h2]
      rw [List.any_eq_true] at h2
      obtain ⟨e, he, hne⟩ := h2
      rw [decide_eq_true_iff] at hne
      constructor
      · intro h
        exact Except.noConfusion h
      · intro h
        exact absurd (h.2 e he) hne
    · rw [if_neg h2]
      have hall : ∀ e ∈ table, e.length = 4 := by
        intro e he
        by_contra hne
        exact h2 (List.any_eq_true.mpr ⟨e, he, by simpa using hne⟩)
      exact ⟨fun _ => ⟨by omega, hall⟩, fun _ => rfl⟩

/-- Area-overlap weight of input column `j` on output column `i`, from
`resample` (fast-spectrogram.ts lines 263–300).  Following the source's
(transposed) naming, `oldHeight` is the number of input columns and
`width` the number of output columns; each column covers a `1/count`
slice of normalized time, and the weight is the overlap length divided by
one output slice.  The source skips zero-overlap terms; their weight is 0
so the accumulated sum is unchanged. -/
def overlapWeight (oldHeight width i j : ℕ) : ℚ :=
  let oldPiece : ℚ := 1 / (oldHeight : ℚ)
  let newPiece : ℚ := 1 / (width : ℚ)
  let newStart : ℚ := (i : ℚ) * newPiece
  let newEnd : ℚ := newStart + newPiece
  let oldStart : ℚ := (j : ℚ) * oldPiece
  let oldEnd : ℚ := oldStart + oldPiece
  max 0 (min oldEnd newEnd - max oldStart newStart) / newPiece

/-- Output column `i` of `resample`: accumulate the weighted input
columns into a float column, then store each entry into a `Uint8Array`
via `~~` truncation (the `toUint8`). -/
def resampleColumn (oldMatrix : List (List ℕ)) (width i : ℕ) : List ℕ :=
  (List.range (oldMatrix.headD []).length).map fun k =>
    toUint8 ((List.range oldMatrix.length).foldl
      (fun acc j => acc + overlapWeight oldMatrix.length width i j *
        (((oldMatrix.getD j []).getD k 0 : ℕ) : ℚ)) 0)

/-- `resample(oldMatrix, width)` (fast-spectrogram.ts lines 263–300). -/
def resample (oldMatrix : List (List ℕ)) (width : ℕ) : List (List ℕ) :=
  (List.range width).map fun i => resampleColumn oldMatrix width i

theorem foldl_delta (v : ℕ → ℚ) (i : ℕ) :
    ∀ n, (List.range n).foldl
        (fun acc j => acc + (if i = j then 1 else 0) * v j) 0 =
      if i < n then v i else 0 := by
  intro n
  induction n with
  | zero => simp
  | succ m ih =>
    rw [List.range_succ, List.foldl_append, ih]
    simp only [List.foldl_cons, List.foldl_nil]
    by_cases him : i = m
    · subst him
      rw [if_neg (lt_irrefl i), if_pos rfl, if_pos (Nat.lt_succ_self i)]
      ring
    · by_cases hilt : i < m
      · rw [if_pos hilt, if_neg him, if_pos (by omega)]
        ring
      · rw [if_neg hilt, if_neg him, if_neg (by omega)]
        ring

theorem overlapWeight_same_width (n i j : ℕ) (hn : 0 < n) :
    overlapWeight n n i j = if i = j then 1 else 0 := by
  have hnq : (0 : ℚ) < (n : ℚ) := by exact_mod_cast hn
  have hp : (0 : ℚ) < 1 / (n : ℚ) := by positivity
  set p : ℚ := 1 / (n : ℚ) with hpdef
  by_cases hij : i = j
  · subst hij
    rw [if_pos rfl]
    simp only [overlapWeight, ← hpdef, min_self, max_self]
    have harith : (i : ℚ) * p + p - (i : ℚ) * p = p := by ring
    rw [harith, max_eq_right (le_of_lt hp), div_self (ne_of_gt hp)]
  · rw [if_neg hij]
    simp only [overlapWeight, ← hpdef]
    rcases Nat.lt_or_ge i j with hlt | hge
    · have hcast : ((i : ℚ) + 1) ≤ (j : ℚ) := by exact_mod_cast hlt
      have h1 : (i : ℚ) * p + p ≤ (j : ℚ) * p := by nlinarith
      have h2 : min ((j : ℚ) * p + p) ((i : ℚ) * p + p) -
          max ((j : ℚ) * p) ((i : ℚ) * p) ≤ 0 := by
        have hmin := min_le_right ((j : ℚ) * p + p) ((i : ℚ) * p + p)
        have hmax := le_max_left ((j : ℚ) * p) ((i : ℚ) * p)
        linarith
      rw [max_eq_left h2, zero_div]
    · have hjlt : j < i := lt_of_le_of_ne hge (fun h => hij h.symm)
      have hcast : ((j : ℚ) + 1) ≤ (i : ℚ) := by exact_mod_cast hjlt
      have h1 : (j : ℚ) * p + p ≤ (i : ℚ) * p := by nlinarith
      have h2 : min ((j : ℚ) * p + p) ((i : ℚ) * p + p) -
          max ((j : ℚ) * p) ((i : ℚ) * p) ≤ 0 := by
        have hmin := min_le_left ((j : ℚ) * p + p) ((i : ℚ) * p + p)
        have hmax := le_max_right ((j : ℚ) * p) ((i : ℚ) * p)
        linarith
      rw [max_eq_left h2, zero_div]

theorem map_getD_range {α : Type} (d : α) (l : List α) :
    (List.range l.length).map (fun k => l.getD k d) = l := by
  apply List.ext_getElem
  · simp
  · intro k h1 h2
    simp only [List.getElem_map, List.getElem_range]
    rw [List.getD_eq_getElem?_getD, List.getElem?_eq_getElem h2]
    rfl

theorem getD_mem {α : Type} (l : List α) (k : ℕ) (d : α) (h : k < l.length) :
    l.getD k d ∈ l := by
  have := List.getElem?_eq_getElem h
  rw [List.getD_eq_getElem?_getD, this]
  exact List.getElem_mem h

theorem resampleColumn_identity (m : List (List ℕ))
    (hcols : ∀ c ∈ m, c.length = (m.headD []).length)
    (hvals : ∀ c ∈ m, ∀ v ∈ c, v < 256)
    (i : ℕ) (hi : i < m.length) :
    resampleColumn m m.length i = m.getD i [] := by
  have hn : 0 < m.length := by omega
  have hmem : m.getD i [] ∈ m := getD_mem m i [] hi
  have hW : (m.getD i []).length = (m.headD []).length := hcols _ hmem
  rw [resampleColumn]
  have hcell : ∀ k, k < (m.headD []).length →
      toUint8 ((List.range m.length).foldl
        (fun acc j => acc + overlapWeight m.length m.length i j *
          (((m.getD j []).getD k 0 : ℕ) : ℚ)) 0) = (m.getD i []).getD k 0 := by
    intro k hk
    have hfold : (List.range m.length).foldl
        (fun acc j => acc + overlapWeight m.length m.length i j *
          (((m.getD j []).getD k 0 : ℕ) : ℚ)) 0 =
        (List.range m.length).foldl
        (fun acc j => acc + (if i = j then 1 else 0) *
          (((m.getD j []).getD k 0 : ℕ) : ℚ)) 0 := by
      apply List.foldl_ext
      intro a j hj
      rw [overlapWeight_same_width m.length i j hn]
    rw [hfold, foldl_delta (fun j => (((m.getD j []).getD k 0 : ℕ) : ℚ)) i
      m.length, if_pos hi]
    apply toUint8_natCast
    have hkl : k < (m.getD i []).length := by omega
    exact hvals _ hmem _ (getD_mem (m.getD i []) k 0 hkl)
  calc (List.range (m.headD []).length).map (fun k =>
          toUint8 ((List.range m.length).foldl
            (fun acc j => acc + overlapWeight m.length m.length i j *
              (((m.getD j []).getD k 0 : ℕ) : ℚ)) 0))
      = (List.range (m.headD []).length).map
          (fun k => (m.getD i []).getD k 0) := by
        apply List.map_congr_left
        intro k hk
        exact hcell k (List.mem_range.mp hk)
    _ = m.getD i [] := by
        rw [← hW]
        exact map_getD_range 0 (m.getD i [])

/-- C8: resampling a non-empty well-formed byte matrix to its own column
count reproduces it exactly (so in particular within the claimed
truncation slack of 1 per cell), and every resample output column has the
input row count. -/
theorem resample_identity (m : List (List ℕ)) (_hne : m ≠ [])
    (hcols : ∀ c ∈ m, c.length = (m.headD []).length)
    (hvals : ∀ c ∈ m, ∀ v ∈ c, v < 256) :
    resample m m.length = m ∧
      ∀ w : ℕ, ∀ col ∈ resample m w, col.length = (m.headD []).length := by
  constructor
  · rw [resample]
    have hstep : (List.range m.length).map
        (fun i => resampleColumn m m.length i) =
        (List.range m.length).map (fun i => m.getD i []) := by
      apply List.map_congr_left
      intro i hi
      exact resampleColumn_identity m hcols hvals i (List.mem_range.mp hi)
    rw [hstep]
    exact map_getD_range [] m
  · intro w col hcol
    rw [resample] at hcol
    obtain ⟨i, hi, rfl⟩ := List.mem_map.mp hcol
    rw [resampleColumn]
    simp

/-- C8 witness: concrete instance at the 2×2 matrix [[1,2],[3,4]]. -/
theorem resample_identity_witness :
    resample [[1, 2], [3, 4]] 2 = [[1, 2], [3, 4]] ∧
      ∀ w : ℕ, ∀ col ∈ resample [[1, 2], [3, 4]] w, col.length = 2 :=
  resample_identity [[1, 2], [3, 4]] (by decide) (by decide) (by decide)

/-- An FFT plan as held by the `FFT` class (lib.ts lines 1–22): the
buffer size and the four precomputed tables.  The table contents are
Float32 transcendental values in the source; here they are arbitrary
rationals, which is all the structural claims about `calculateSpectrum`
need. -/
structure FFTPlan where
  bufferSize : ℕ
  sinTable : List ℚ
  cosTable : List ℚ
  windowValues : List ℚ
  reverseTable : List ℕ

/-- Innermost butterfly loop of `calculateSpectrum` (lib.ts lines
139–148): `for (i = fftStep; i < bufferSize; i += halfSize << 1)`.
In-range semantics match the source exactly for `halfSize ≥ 1` (so
`off ≠ i`); out-of-range reads give 0 where the source reads `undefined`,
a case never reached for power-of-two sizes.  Fuel dominates the
iteration count (`n` suffices for any `halfSize ≥ 1`). -/
def btflyI (hs : ℕ) (cr ci : ℚ) (n : ℕ) :
    ℕ → ℕ → List ℚ × List ℚ → List ℚ × List ℚ
  | 0, _, st => st
  | fuel + 1, i, st =>
    if i < n then
      let re := st.1
      let im := st.2
      let off := i + hs
      let tr := cr * re.getD off 0 - ci * im.getD off 0
      let ti := cr * im.getD off 0 + ci * re.getD off 0
      let re2 := (re.set off (re.getD i 0 - tr)).set i (re.getD i 0 + tr)
      let im2 := (im.set off (im.getD i 0 - ti)).set i (im.getD i 0 + ti)
      btflyI hs cr ci n fuel (i + 2 * hs) (re2, im2)
    else st

/-- Middle loop of `calculateSpectrum` (lib.ts lines 138–153):
`for (fftStep = 0; fftStep < halfSize; fftStep++)`, advancing the current
phase shift by complex multiplication with the per-stage step after each
inner pass.  The countdown argument makes it structural: it starts at
`halfSize` so the loop runs exactly `halfSize` times. -/
def btflyF (n : ℕ) (psr psi : ℚ) (hs : ℕ) :
    ℕ → ℕ → ℚ → ℚ → List ℚ × List ℚ → List ℚ × List ℚ
  | 0, _, _, _, st => st
  | steps + 1, fftStep, cr, ci, st =>
    btflyF n psr psi hs steps (fftStep + 1)
      (cr * psr - ci * psi) (cr * psi + ci * psr)
      (btflyI hs cr ci n n fftStep st)

/-- Main FFT loop of `calculateSpectrum` (lib.ts lines 132–154):
`for (halfSize = 1; halfSize < bufferSize; halfSize <<= 1)`, reading the
per-stage twiddle factors `cosTable[halfSize]`, `sinTable[halfSize]`.
Fuel `n` dominates the number of doublings. -/
def fftLoop (cosT sinT : List ℚ) (n : ℕ) :
    ℕ → ℕ → List ℚ × List ℚ → List ℚ × List ℚ
  | 0, _, st => st
  | fuel + 1, hs, st =>
    if hs < n then
      fftLoop cosT sinT n fuel (2 * hs)
        (btflyF n (cosT.getD hs 0) (sinT.getD hs 0) hs hs 0 1 0 st)
    else st

/-- Magnitude loop of `calculateSpectrum` (lib.ts lines 156–164): for
each bin `i < N = bufferSize >> 1`, `mag = bSi * hypot(real[i], imag[i])`,
updating the running `this.peak` when exceeded and appending `mag` to the
spectrum.  `hypot` is an abstract parameter (Float `Math.hypot` is
transcendental); every claim proved about this loop holds for every
`hypot`.  The countdown starts at `N` so the loop runs exactly `N`
times. -/
def magLoop (hypot : ℚ → ℚ → ℚ) (bSi : ℚ) (re im : List ℚ) :
    ℕ → ℕ → ℚ → List ℚ → List ℚ × ℚ
  | 0, _, peak, spec => (spec, peak)
  | steps + 1, i, peak, spec =>
    let mag := bSi * hypot (re.getD i 0) (im.getD i 0)
    let peak2 := if peak < mag then mag else peak
    magLoop hypot bSi re im steps (i + 1) peak2 (spec ++ [mag])

/-- `calculateSpectrum` (lib.ts lines 118–167): window + bit-reversal
reordering into a fresh real/imaginary pair, the main FFT loop, then the
magnitude pass.  Returns the spectrum together with the updated running
peak (`this.peak` before the call is the `peak` argument). -/
def calculateSpectrum (hypot : ℚ → ℚ → ℚ) (plan : FFTPlan) (peak : ℚ)
    (buffer : List ℚ) : List ℚ × ℚ :=
  let n := plan.bufferSize
  let real := (List.range n).map fun i =>
    buffer.getD (plan.reverseTable.getD i 0) 0 *
      plan.windowValues.getD (plan.reverseTable.getD i 0) 0
  let imag := (List.range n).map fun _ => (0 : ℚ)
  let st := fftLoop plan.cosTable plan.sinTable n n 1 (real, imag)
  magLoop hypot (2 / (n : ℚ)) st.1 st.2 (n / 2) 0 peak []

/-- The sequence of `halfSize` values of the main FFT loop — exactly the
indices at which the twiddle tables are read (lib.ts lines 132–134). -/
def stageSizesAux (n : ℕ) : ℕ → ℕ → List ℕ
  | 0, _ => []
  | fuel + 1, hs => if hs < n then hs :: stageSizesAux n fuel (2 * hs) else []

def stageSizes (n : ℕ) : List ℕ :=
  stageSizesAux n n 1

theorem stageSizesAux_pow2 (n : ℕ) :
    ∀ fuel hs, (∃ j, hs = 2 ^ j) →
      ∀ s ∈ stageSizesAux n fuel hs, ∃ j, s = 2 ^ j := by
  intro fuel
  induction fuel with
  | zero =>
    intro hs _ s hmem
    simp [stageSizesAux] at hmem
  | succ f ih =>
    intro hs hpow s hmem
    rw [stageSizesAux] at hmem
    by_cases hc : hs < n
    · rw [if_pos hc] at hmem
      rcases List.mem_cons.mp hmem with rfl | htl
      · exact hpow
      · obtain ⟨j, hj⟩ := hpow
        exact ih (2 * hs) ⟨j + 1, by rw [hj]; ring⟩ s htl
    · rw [if_neg hc] at hmem
      simp at hmem

theorem getD_set_ne {α : Type} (l : List α) (i j : ℕ) (x d : α)
    (h : i ≠ j) : (l.set i x).getD j d = l.getD j d := by
  rw [List.getD_eq_getElem?_getD, List.getD_eq_getElem?_getD,
    List.getElem?_set_ne h]

theorem fftLoop_set_zero (cosT sinT : List ℚ) (c0 s0 : ℚ) (n : ℕ) :
    ∀ fuel hs st, 0 < hs →
      fftLoop (cosT.set 0 c0) (sinT.set 0 s0) n fuel hs st =
        fftLoop cosT sinT n fuel hs st := by
  intro fuel
  induction fuel with
  | zero =>
    intro hs st _
    rfl
  | succ f ih =>
    intro hs st hhs
    rw [fftLoop, fftLoop]
    by_cases hc : hs < n
    · rw [if_pos hc, if_pos hc]
      rw [getD_set_ne cosT 0 hs c0 0 (by omega),
        getD_set_ne sinT 0 hs s0 0 (by omega)]
      exact ih (2 * hs) _ (by omega)
    · rw [if_neg hc, if_neg hc]

theorem magLoop_spectrum_peak_free (hypot : ℚ → ℚ → ℚ) (bSi : ℚ)
    (re im : List ℚ) :
    ∀ steps i p q spec,
      (magLoop hypot bSi re im steps i p spec).1 =
        (magLoop hypot bSi re im steps i q spec).1 := by
  intro steps
  induction steps with
  | zero =>
    intro i p q spec
    rfl
  | succ st ih =>
    intro i p q spec
    rw [magLoop, magLoop]
    exact ih (i + 1) _ _ _

/-- C9: every stage size at which the main loop reads the twiddle tables
is a power of two (hence ≥ 1), and overwriting the undefined entry at
index 0 of the sine and cosine tables with arbitrary values leaves
`calculateSpectrum` unchanged for every peak state and input frame — the
entry at index 0 is never read. -/
theorem twiddle_index_zero_never_read (n : ℕ) (hypot : ℚ → ℚ → ℚ)
    (plan : FFTPlan) (peak : ℚ) (buffer : List ℚ) (c0 s0 : ℚ) :
    (∀ s ∈ stageSizes n, (∃ j, s = 2 ^ j) ∧ 1 ≤ s) ∧
      calculateSpectrum hypot
          { plan with cosTable := plan.cosTable.set 0 c0,
                      sinTable := plan.sinTable.set 0 s0 } peak buffer =
        calculateSpectrum hypot plan peak buffer := by
  constructor
  · intro s hmem
    have hpow := stageSizesAux_pow2 n n 1 ⟨0, rfl⟩ s hmem
    obtain ⟨j, hj⟩ := hpow
    exact ⟨⟨j, hj⟩, by rw [hj]; exact Nat.one_le_two_pow⟩
  · show (magLoop hypot _ _ _ _ _ _ _ = _)
    rw [calculateSpectrum]
    have hloop := fftLoop_set_zero plan.cosTable plan.sinTable c0 s0
      plan.bufferSize plan.bufferSize 1
      ((List.range plan.bufferSize).map fun i =>
          buffer.getD (plan.reverseTable.getD i 0) 0 *
            plan.windowValues.getD (plan.reverseTable.getD i 0) 0,
        (List.range plan.bufferSize).map fun _ => (0 : ℚ)) (by omega)
    show (magLoop hypot (2 / (plan.bufferSize : ℚ))
        (fftLoop (plan.cosTable.set 0 c0) (plan.sinTable.set 0 s0)
          plan.bufferSize plan.bufferSize 1 _).1
        (fftLoop (plan.cosTable.set 0 c0) (plan.sinTable.set 0 s0)
          plan.bufferSize plan.bufferSize 1 _).2
        (plan.bufferSize / 2) 0 peak [] = _)
    rw [hloop]

/-- C9 witness: for an 8-point plan the stage sizes are 1, 2, 4;
instance at stage size 4. -/
theorem twiddle_index_zero_never_read_witness :
    (∃ j, 4 = 2 ^ j) ∧ 1 ≤ 4 :=
  (twiddle_index_zero_never_read 8 (fun a b => a + b)
    ⟨8, [], [], [], []⟩ 0 [] 0 0).1 4 (by decide)

/-- C10: the spectrum component of `calculateSpectrum` does not depend on
the running peak state: computing frame `f2` with the peak left behind by
an earlier computation of `f1` yields exactly the spectrum obtained with
a fresh plan (whose constructor sets `this.peak = 0`); the peak is a
diagnostics accumulator only. -/
theorem spectrum_independent_of_peak (hypot : ℚ → ℚ → ℚ) (plan : FFTPlan)
    (f1 f2 : List ℚ) :
    (calculateSpectrum hypot plan
        (calculateSpectrum hypot plan 0 f1).2 f2).1 =
      (calculateSpectrum hypot plan 0 f2).1 := by
  exact magLoop_spectrum_peak_free hypot _ _ _ _ 0 _ 0 []
